import Mathlib

/-!
Verification development for the teaLeaf repository.

The repository contains several JavaScript variants of the same pipeline:
seeded binary noise → forward 2D FFT → frequency mask → inverse 2D FFT →
threshold.  The sources embedded here:

* `src/js/fft.js` — `Complex`, `nextPowerOf2`, `fftPow2`, `bluesteinFFT`,
  `fft1d`, `fft2d`;
* `src/js/sketch.js` — `mulberry32`, `fft1d`, `fft2d`, `masked`,
  `generateTeaLeaf`, `THRESHOLD`;
* `src/unnamed/part_000` — two variants: a recursive `fft1d` that throws on
  non-power-of-two lengths with an `fft2d` that normalizes the inverse by
  `1/(width*height)`, and an iterative `fft1d` that normalizes the inverse
  by `1/n`;
* `src/web/sketch.js` — Park–Miller RNG, `fillRandomBinary`,
  `applyFrequencyMask`, `masked`, `renderTeaLeaf`;
* `src/unnamed/part_001` — split-array `fftRadix2` with a `normalize` flag
  and a `bluestein` convolution.

The JavaScript sources compute with IEEE-754 doubles and call
`Math.cos` / `Math.sin`.  The embedding is exact: complex components live in
an arbitrary field `R`, and the two trigonometric functions are passed in as
parameters `c s : ℚ → R`, where the rational argument `q` stands for the
angle `q·π` (every angle the sources construct is a rational multiple of π).
Instantiating `R := ℝ`, `c := fun q => Real.cos (q * Real.pi)`,
`s := fun q => Real.sin (q * Real.pi)` yields the real-arithmetic semantics
of the code.
-/

namespace TeaLeaf

/-- Complex value mirroring the `Complex` class shared by `src/js/fft.js`,
`src/js/sketch.js` and `src/unnamed/part_000`: a pair of components.  The
sources use IEEE doubles; the embedding is over an exact field. -/
structure Cx (R : Type) where
  re : R
  im : R
deriving Repr, DecidableEq

namespace Cx

variable {R : Type} [Field R]

/-- `add(other)`: componentwise sum. -/
def add (a b : Cx R) : Cx R := ⟨a.re + b.re, a.im + b.im⟩

/-- `sub(other)` / `subtract(c)`: componentwise difference. -/
def sub (a b : Cx R) : Cx R := ⟨a.re - b.re, a.im - b.im⟩

/-- `mul(other)` / `multiply(c)`: the four-multiplication product
`(ac − bd, ad + bc)`. -/
def mul (a b : Cx R) : Cx R :=
  ⟨a.re * b.re - a.im * b.im, a.re * b.im + a.im * b.re⟩

/-- `div(scalar)` from `src/js/fft.js`: divide both components by a scalar. -/
def divS (a : Cx R) (sc : R) : Cx R := ⟨a.re / sc, a.im / sc⟩

/-- `scale(s)` from `src/unnamed/part_000`: multiply both components by a
scalar. -/
def scale (a : Cx R) (sc : R) : Cx R := ⟨a.re * sc, a.im * sc⟩

@[simp] theorem scale_def (a : Cx R) (sc : R) :
    a.scale sc = ⟨a.re * sc, a.im * sc⟩ := rfl

end Cx

variable {R : Type} [Field R]

/-- Array read `arr[i]`.  Every in-bounds read of the sources is modelled
exactly; the sources index in bounds on the control paths the claims are
about. -/
def getC (l : List (Cx R)) (i : ℕ) : Cx R := l.getD i ⟨0, 0⟩

/-- Row-column read `matrix[r][c]` for a matrix stored as a list of rows. -/
def getC2 (m : List (List (Cx R))) (r c₀ : ℕ) : Cx R := getC (m.getD r []) c₀

/-- Direction sign: `const sign = inverse ? 1 : -1`, common to every variant. -/
def dirSign (inverse : Bool) : ℚ := if inverse then 1 else -1

/-- Bit-reversal index: `j = 0; for k in [0,bits): j = (j << 1) | ((i >> k) & 1)`
(`fftPow2` in `src/js/fft.js`); the `while (bit > 0)` loop of `fft1d` in
`src/js/sketch.js` and `src/unnamed/part_000` computes the same fold with
`bits = ⌊log₂ n⌋` iterations. -/
def bitRevIndex (bits i : ℕ) : ℕ :=
  (List.range bits).foldl (fun j k => (j <<< 1) ||| ((i >>> k) &&& 1)) 0

/-- One butterfly update: `u = a[i+j]; v = a[i+j+half] * w;
a[i+j] = u + v; a[i+j+half] = u - v`.  The butterfly loops of `fftPow2`
(`src/js/fft.js`), `fft1d` (`src/js/sketch.js`) and the iterative `fft1d`
(`src/unnamed/part_000`) are textually identical, so they share this
embedding. -/
def bfStep (i half : ℕ) (w : Cx R) (arr : List (Cx R)) (j : ℕ) : List (Cx R) :=
  let u := getC arr (i + j)
  let v := (getC arr (i + j + half)).mul w
  (arr.set (i + j) (u.add v)).set (i + j + half) (u.sub v)

/-- Inner `j` loop over one block: starts at `w = 1` and multiplies `w` by
`wlen` after each butterfly. -/
def bfBlock (wlen : Cx R) (half i : ℕ) (arr : List (Cx R)) : List (Cx R) :=
  ((List.range half).foldl
    (fun st j => (bfStep i half st.2 st.1 j, st.2.mul wlen))
    (arr, (⟨1, 0⟩ : Cx R))).1

/-- One stage of width `len`: `angle = (2π/len)·sign`,
`wlen = (cos angle, sin angle)`, blocks start at `i = 0, len, 2·len, …`
while `i < n`. -/
def bfStage (c s : ℚ → R) (sgn : ℚ) (n len : ℕ) (arr : List (Cx R)) :
    List (Cx R) :=
  let wlen : Cx R := ⟨c (2 * sgn / len), s (2 * sgn / len)⟩
  (List.range ((n + len - 1) / len)).foldl
    (fun a b => bfBlock wlen (len / 2) (b * len) a) arr

/-- The stage loop `for (len = 2; len <= n; len <<= 1)`: stages have widths
`2, 4, …, 2^⌊log₂ n⌋`. -/
def butterflies (c s : ℚ → R) (sgn : ℚ) (n : ℕ) (arr : List (Cx R)) :
    List (Cx R) :=
  (List.range (Nat.log 2 n)).foldl
    (fun a k => bfStage c s sgn n (2 ^ (k + 1)) a) arr

/-- `fftPow2` from `src/js/fft.js`: `n ≤ 1` returns an element-wise copy of
the input; otherwise bit-reversal copy (the `k < Math.log2(n)` loop runs
`⌈log₂ n⌉` times) followed by the butterfly stages.  The inverse direction
performs no normalization ("FFTW-style: NO normalization for inverse"). -/
def fftPow2 (c s : ℚ → R) (input : List (Cx R)) (inverse : Bool) :
    List (Cx R) :=
  let n := input.length
  if n ≤ 1 then input.map (fun x => ⟨x.re, x.im⟩)
  else
    let bits := Nat.clog 2 n
    let arr := (List.range n).map (fun i => getC input (bitRevIndex bits i))
    butterflies c s (dirSign inverse) n arr

/-- `fft1d` from `src/js/sketch.js`: identical to `fftPow2` except that its
bit-reversal `while` loop runs `⌊log₂ n⌋` times (equal for powers of two).
No normalization in the inverse direction. -/
def sketchFft1d (c s : ℚ → R) (input : List (Cx R)) (inverse : Bool) :
    List (Cx R) :=
  let n := input.length
  if n ≤ 1 then input.map (fun x => ⟨x.re, x.im⟩)
  else
    let bits := Nat.log 2 n
    let arr := (List.range n).map (fun i => getC input (bitRevIndex bits i))
    butterflies c s (dirSign inverse) n arr

/-- The iterative `fft1d` of `src/unnamed/part_000` (second document): the
same bit-reversal and butterflies as `src/js/sketch.js`, followed by
`if (inverse) result[i] = result[i].scale(1 / n)`. -/
def p0v2Fft1d (c s : ℚ → R) (input : List (Cx R)) (inverse : Bool) :
    List (Cx R) :=
  let n := input.length
  if n ≤ 1 then input.map (fun x => ⟨x.re, x.im⟩)
  else
    let bits := Nat.log 2 n
    let arr := (List.range n).map (fun i => getC input (bitRevIndex bits i))
    let result := butterflies c s (dirSign inverse) n arr
    if inverse then result.map (fun z => z.scale (1 / (n : R))) else result

/-- `nextPowerOf2` from `src/js/fft.js`:
`Math.pow(2, Math.ceil(Math.log2(n)))`, i.e. `2 ^ ⌈log₂ n⌉`. -/
def jsNextPowerOf2 (n : ℕ) : ℕ := 2 ^ Nat.clog 2 n

/-- The chirp table of `bluesteinFFT` in `src/js/fft.js`:
`chirp[n] = exp(sign·i·π·n²/N) = (cos, sin)` of angle `sign·n²/N · π`. -/
def bluChirp (c s : ℚ → R) (sgn : ℚ) (N : ℕ) : List (Cx R) :=
  (List.range N).map (fun n => ⟨c (sgn * n * n / N), s (sgn * n * n / N)⟩)

/-- The padded sequence `A` of `bluesteinFFT`:
`A[n] = input[n] * chirp[n]` for `n < N`, zero elsewhere up to `M`. -/
def bluA (input chirp : List (Cx R)) (N M : ℕ) : List (Cx R) :=
  (List.range M).map (fun n =>
    if n < N then (getC input n).mul (getC chirp n) else ⟨0, 0⟩)

/-- The impulse response `B` of `bluesteinFFT`: `B[0] = 1` and, for
`1 ≤ n < N`, `B[n] = B[M−n] = exp(−sign·i·π·n²/N)` (circular placement). -/
def bluB (c s : ℚ → R) (sgn : ℚ) (N M : ℕ) : List (Cx R) :=
  (List.range' 1 (N - 1)).foldl
    (fun b (n : ℕ) =>
      let val : Cx R := ⟨c (-sgn * n * n / N), s (-sgn * n * n / N)⟩
      (b.set n val).set (M - n) val)
    ((List.replicate M (⟨0, 0⟩ : Cx R)).set 0 ⟨1, 0⟩)

/-- The convolution of `bluesteinFFT`:
`convResult = fftPow2(fftA .* fftB, true)` — the unnormalized inverse of the
pointwise product of the two forward transforms, exactly as the source
computes it (no division by `M` here). -/
def bluConv (c s : ℚ → R) (A B : List (Cx R)) (M : ℕ) : List (Cx R) :=
  fftPow2 c s
    ((List.range M).map (fun i =>
      (getC (fftPow2 c s A false) i).mul (getC (fftPow2 c s B false) i)))
    true

/-- `bluesteinFFT` from `src/js/fft.js`.  Power-of-two lengths (the test
`(N & (N-1)) === 0`) dispatch to `fftPow2`; otherwise the chirp-convolution
path runs with `M = nextPowerOf2(2N−1)`.  Note the convolution result
`bluConv` is used directly in the final chirp multiplication, **without**
dividing by `M`. -/
def jsBluesteinFFT (c s : ℚ → R) (input : List (Cx R)) (inverse : Bool) :
    List (Cx R) :=
  let N := input.length
  if N &&& (N - 1) = 0 then fftPow2 c s input inverse
  else
    let M := jsNextPowerOf2 (2 * N - 1)
    let sgn : ℚ := if inverse then 1 else -1
    let chirp := bluChirp c s sgn N
    let convResult := bluConv c s (bluA input chirp N M) (bluB c s sgn N M) M
    (List.range N).map (fun k => (getC chirp k).mul (getC convResult k))

/-- Modelled from the spec (§4.3 step 5): the Bluestein transform as the
spec words it — identical to `jsBluesteinFFT` except that, because
`Radix2Transform`'s inverse is unnormalized, every entry of the convolution
result `C` is divided by `M` explicitly before the final chirp
multiplication. -/
def specBluesteinFFT (c s : ℚ → R) (input : List (Cx R)) (inverse : Bool) :
    List (Cx R) :=
  let N := input.length
  if N &&& (N - 1) = 0 then fftPow2 c s input inverse
  else
    let M := jsNextPowerOf2 (2 * N - 1)
    let sgn : ℚ := if inverse then 1 else -1
    let chirp := bluChirp c s sgn N
    let convResult :=
      (bluConv c s (bluA input chirp N M) (bluB c s sgn N M) M).map
        (fun z => z.divS (M : R))
    (List.range N).map (fun k => (getC chirp k).mul (getC convResult k))

/-- `fft1d` from `src/js/fft.js`: delegates to `bluesteinFFT`. -/
def jsFft1d (c s : ℚ → R) (input : List (Cx R)) (inverse : Bool) :
    List (Cx R) :=
  jsBluesteinFFT c s input inverse

/-- `fft2d` from `src/js/fft.js`: 1D transforms along the rows, then along
the columns of the row-transformed matrix; `result[i][j]` is entry `i` of
the transformed column `j`. -/
def jsFft2d (c s : ℚ → R) (matrix : List (List (Cx R))) (inverse : Bool) :
    List (List (Cx R)) :=
  let rows := matrix.length
  let cols := (matrix.headD []).length
  let rowTransformed := matrix.map (fun row => jsFft1d c s row inverse)
  let col := fun j => jsFft1d c s (rowTransformed.map (fun r => getC r j)) inverse
  (List.range rows).map (fun i => (List.range cols).map (fun j => getC (col j) i))

/-- The `fft2d` built on `specBluesteinFFT` instead of `bluesteinFFT`,
refining `fft2d` of `src/js/fft.js` by the spec's convolution
normalization. -/
def specFft2d (c s : ℚ → R) (matrix : List (List (Cx R))) (inverse : Bool) :
    List (List (Cx R)) :=
  let rows := matrix.length
  let cols := (matrix.headD []).length
  let rowTransformed := matrix.map (fun row => specBluesteinFFT c s row inverse)
  let col := fun j =>
    specBluesteinFFT c s (rowTransformed.map (fun r => getC r j)) inverse
  (List.range rows).map (fun i => (List.range cols).map (fun j => getC (col j) i))

/-- `fft2d` from `src/js/sketch.js` (also the shape of `fft2d` in the second
document of `src/unnamed/part_000`): square variant, both passes sized by
`n = matrix.length`. -/
def sketchFft2d (c s : ℚ → R) (matrix : List (List (Cx R))) (inverse : Bool) :
    List (List (Cx R)) :=
  let n := matrix.length
  let rowTransformed := matrix.map (fun row => sketchFft1d c s row inverse)
  let col := fun j => sketchFft1d c s (rowTransformed.map (fun r => getC r j)) inverse
  (List.range n).map (fun i => (List.range n).map (fun j => getC (col j) i))

/-- `x.filter((_, i) => i % 2 === 0)`: elements at even indices. -/
def evenIdxElems {α : Type} : List α → List α
  | [] => []
  | [a] => [a]
  | a :: _ :: rest => a :: evenIdxElems rest

/-- `x.filter((_, i) => i % 2 === 1)`: elements at odd indices. -/
def oddIdxElems {α : Type} : List α → List α
  | [] => []
  | [_] => []
  | _ :: b :: rest => b :: oddIdxElems rest

theorem length_evenIdxElems {α : Type} (l : List α) :
    (evenIdxElems l).length = (l.length + 1) / 2 := by
  induction l using evenIdxElems.induct <;> · simp [evenIdxElems, *]; try omega

theorem length_oddIdxElems {α : Type} (l : List α) :
    (oddIdxElems l).length = l.length / 2 := by
  induction l using oddIdxElems.induct <;> · simp [oddIdxElems, *]; try omega

/-- The recursive `fft1d` of `src/unnamed/part_000` (first document):
`N ≤ 1` returns the input itself; a non-power-of-two `N` throws
`'FFT size must be a power of 2'`; otherwise decimation in time over the
even- and odd-indexed halves, recombined with twiddles
`exp(direction·2πi·k/N)`. -/
def p0v1Fft1d (c s : ℚ → R) (x : List (Cx R)) (inverse : Bool) :
    Except String (List (Cx R)) :=
  if h1 : x.length ≤ 1 then .ok x
  else if x.length &&& (x.length - 1) ≠ 0 then
    .error "FFT size must be a power of 2"
  else do
    let even ← p0v1Fft1d c s (evenIdxElems x) inverse
    let odd ← p0v1Fft1d c s (oddIdxElems x) inverse
    let N := x.length
    let direction : ℚ := if inverse then 1 else -1
    .ok ((List.range (N / 2)).foldl
      (fun arr (k : ℕ) =>
        let w : Cx R := ⟨c (direction * 2 * k / N), s (direction * 2 * k / N)⟩
        let t := w.mul (getC odd k)
        (arr.set k ((getC even k).add t)).set (k + N / 2) ((getC even k).sub t))
      (List.replicate N (⟨0, 0⟩ : Cx R)))
termination_by x.length
decreasing_by
  all_goals
    have hev := length_evenIdxElems x
    have hod := length_oddIdxElems x
    simp only [Nat.not_le] at h1
    omega

/-- Column write-back of `fft2d` in `src/unnamed/part_000` (first document):
`for (row …) result[row][col] = column[row]`. -/
def setCol (m : List (List (Cx R))) (colIdx : ℕ) (col : List (Cx R)) :
    List (List (Cx R)) :=
  m.mapIdx (fun r row => row.set colIdx (getC col r))

/-- `fft2d` of `src/unnamed/part_000` (first document): copies the input
(`data.map(row => [...row])`, a value-level identity), transforms the rows,
then each column in place, and — unlike every other variant — normalizes the
inverse by `1 / (width * height)`.  Errors of the recursive `fft1d`
propagate as thrown exceptions do. -/
def p0v1Fft2d (c s : ℚ → R) (data : List (List (Cx R)))
    (width height : ℕ) (inverse : Bool) :
    Except String (List (List (Cx R))) := do
  let rowsDone ← data.mapM (fun row => p0v1Fft1d c s row inverse)
  let afterCols ← (List.range width).foldlM
    (fun acc colIdx => do
      let column ← p0v1Fft1d c s (acc.map (fun r => getC r colIdx)) inverse
      pure (setCol acc colIdx column))
    rowsDone
  if inverse then
    pure (afterCols.map (fun row =>
      row.map (fun z => z.scale (1 / ((width : R) * height)))))
  else
    pure afterCols

/-- `masked` from `src/web/sketch.js`; the `masked` of both documents of
`src/unnamed/part_000` has the same inclusive form.  The global constants
`FREQUENCY_CUTOFF` and `NUM_PIXELS` become the parameters `cutoff` and `n`.
Upper bound `row ≤ n - cutoff` is inclusive. -/
def webMasked (cutoff n row col : ℕ) : Bool :=
  decide ((cutoff ≤ row ∧ row ≤ n - cutoff) ∨ (cutoff ≤ col ∧ col ≤ n - cutoff))

/-- `masked` from `src/js/sketch.js`: strict upper bound `row < n - cutoff`
(`FREQUENCY_CUTOFF <= row && row < n - FREQUENCY_CUTOFF`). -/
def sketchMasked (cutoff n row col : ℕ) : Bool :=
  decide ((cutoff ≤ row ∧ row < n - cutoff) ∨ (cutoff ≤ col ∧ col < n - cutoff))

/-- `applyFrequencyMask` from `src/web/sketch.js`: flat row-major arrays,
`row = ⌊i/n⌋`, `col = i % n`; masked entries are zeroed in both components. -/
def webApplyFrequencyMask (cutoff n : ℕ) (re im : List R) : List R × List R :=
  (re.mapIdx (fun i v => if webMasked cutoff n (i / n) (i % n) then 0 else v),
   im.mapIdx (fun i v => if webMasked cutoff n (i / n) (i % n) then 0 else v))

/-- One output of the `mulberry32` closure
(`src/js/sketch.js` / `src/unnamed/part_000`) as a function of the
accumulated seed value.  JavaScript coerces to 32 bits at every bitwise
operator and at `Math.imul`; those coercions are the explicit `% 2^32`.
The returned value is the 32-bit integer `(t ^ (t >>> 14)) >>> 0`; the
source divides it by `2^32` to produce a float in `[0,1)`. -/
def mbOut (seedVal : ℕ) : ℕ :=
  let t1 := seedVal % 2 ^ 32
  let t2 := ((t1 ^^^ (t1 >>> 15)) * (t1 ||| 1)) % 2 ^ 32
  let t3 := (t2 ^^^ (t2 + ((t2 ^^^ (t2 >>> 7)) * (t2 ||| 61)) % 2 ^ 32)) % 2 ^ 32
  (t3 ^^^ (t3 >>> 14)) % 2 ^ 32

/-- The `k`-th (0-based) output of `mulberry32(seed)`: the closure adds
`0x6D2B79F5` to the seed before each output, and the accumulated sum is
exact in a double for every call count the sources reach. -/
def mbVal (seed k : ℕ) : ℕ := mbOut (seed + (k + 1) * 0x6D2B79F5)

/-- One step of the Park–Miller / Schrage RNG of `src/web/sketch.js`. -/
def pmNext (st : ℕ) : ℕ :=
  let hi := st / 127773
  let lo := st - hi * 127773
  let test : ℤ := 16807 * (lo : ℤ) - 2836 * (hi : ℤ)
  (if test ≤ 0 then test + 2147483647 else test).toNat

/-- Initial state of `makeRng`: `seed % 2147483647`, bumped to 1 if zero. -/
def pmInit (seed : ℕ) : ℕ :=
  let st := seed % 2147483647
  if st = 0 then 1 else st

/-- The `k`-th (0-based) output of `makeRng(seed)`: the state after `k + 1`
steps. -/
def pmVal (seed k : ℕ) : ℕ := pmNext^[k + 1] (pmInit seed)

/-- `fillRandomBinary` from `src/web/sketch.js`:
`re[i] = rand() & 1; im[i] = 0.0` over flat arrays of length `total`. -/
def webFillRandomBinary (seed total : ℕ) : List R × List R :=
  ((List.range total).map (fun i => ((pmVal seed i &&& 1 : ℕ) : R)),
   (List.range total).map (fun _ => (0 : R)))

/-- The noise field of `generateTeaLeaf` in `src/js/sketch.js`: a
`fftSize × fftSize` matrix whose `numPixels × numPixels` corner is
`Complex(Math.floor(rand() * 2), 0)` and whose remainder is zero padding.
`rand()` is called only inside the corner, in row-major order, so the entry
`(i, j)` consumes output `i * numPixels + j`;
`Math.floor(rand() * 2) = ⌊2t/2^32⌋` exactly for a 32-bit `t`. -/
def jsSketchNoiseField (seed numPixels fftSize : ℕ) : List (List (Cx R)) :=
  (List.range fftSize).map (fun i => (List.range fftSize).map (fun j =>
    if i < numPixels ∧ j < numPixels then
      ⟨(((2 * mbVal seed (i * numPixels + j)) / 2 ^ 32 : ℕ) : R), 0⟩
    else ⟨0, 0⟩))

/-- The noise field of `generateTeaLeaf` in `src/unnamed/part_000` (first
document): `rng() < 0.5 ? 0 : 1`, that is `0` exactly when the 32-bit
output is `< 2^31`. -/
def p0v1NoiseField (seed n : ℕ) : List (List (Cx R)) :=
  (List.range n).map (fun row => (List.range n).map (fun col =>
    ⟨((if mbVal seed (row * n + col) < 2 ^ 31 then (0 : ℕ) else 1) : R), 0⟩))

/-- The mask pass of `generateTeaLeaf` in `src/unnamed/part_000` (first
document): zero every masked entry (inclusive bound `masked`). -/
def p0v1ApplyMask (cutoff n : ℕ) (freq : List (List (Cx R))) :
    List (List (Cx R)) :=
  freq.mapIdx (fun row rowL => rowL.mapIdx (fun col z =>
    if webMasked cutoff n row col then ⟨0, 0⟩ else z))

/-- The mask pass of `generateTeaLeaf` in `src/js/sketch.js`: zero every
`masked` entry of the forward-transformed `FFT_SIZE × FFT_SIZE` field
(strict-bound `masked`). -/
def sketchApplyMask (cutoff n : ℕ) (freq : List (List (Cx R))) :
    List (List (Cx R)) :=
  freq.mapIdx (fun row rowL => rowL.mapIdx (fun col z =>
    if sketchMasked cutoff n row col then ⟨0, 0⟩ else z))

/-- The field `middle` of `generateTeaLeaf` in `src/js/sketch.js` after the
forward transform and the mask. -/
def sketchMiddle (c s : ℚ → R) (seed numPixels fftSize cutoff : ℕ) :
    List (List (Cx R)) :=
  sketchApplyMask cutoff fftSize
    (sketchFft2d c s (jsSketchNoiseField seed numPixels fftSize) false)

/-- `generateTeaLeaf` from `src/js/sketch.js`: noise → forward `fft2d` →
mask → inverse `fft2d` (unnormalized).  The constants
`NUM_PIXELS = 420`, `FFT_SIZE = 512`, `FREQUENCY_CUTOFF = 5` become
parameters. -/
def sketchGenerateTeaLeaf (c s : ℚ → R) (seed numPixels fftSize cutoff : ℕ) :
    List (List (Cx R)) :=
  sketchFft2d c s (sketchMiddle c s seed numPixels fftSize cutoff) true

/-- Scalar array read `arr[i]` for the split real/imaginary arrays of
`src/unnamed/part_001` and `src/web/sketch.js`. -/
def getR (l : List R) (i : ℕ) : R := l.getD i 0

/-- `nextPow2` from `src/unnamed/part_001`: `p = 1; while (p < n) p <<= 1`,
with the doubling value written as `2 ^ k`. -/
def p1NextPow2Aux (n k : ℕ) : ℕ :=
  if 2 ^ k < n then p1NextPow2Aux n (k + 1) else 2 ^ k
termination_by n - 2 ^ k
decreasing_by
  have h2 : 2 ^ k < 2 ^ (k + 1) := Nat.pow_lt_pow_succ (by norm_num)
  omega

/-- `nextPow2(n)` of `src/unnamed/part_001`. -/
def p1NextPow2 (n : ℕ) : ℕ := p1NextPow2Aux n 0

/-- The inner update of the in-place bit-reversal of `fftRadix2`
(`src/unnamed/part_001`): `for (; j & bit; bit >>= 1) j ^= bit; j ^= bit`. -/
def p1AdvanceJ (j bit : ℕ) : ℕ :=
  if h : j &&& bit ≠ 0 then p1AdvanceJ (j ^^^ bit) (bit >>> 1) else j ^^^ bit
termination_by bit
decreasing_by
  have hb : bit ≠ 0 := by
    intro hb0
    rw [hb0] at h
    simp at h
  simp only [Nat.shiftRight_one]
  omega

/-- The bit-reversal swap loop of `fftRadix2` in `src/unnamed/part_001`:
`for (i = 1, j = 0; i < n; i++) { …advance j…; if (i < j) swap }` carried
out on the pair of split arrays; `j` is loop-carried state. -/
def p1BitrevSwaps (re im : List R) : List R × List R :=
  let n := re.length
  let final := (List.range' 1 (n - 1)).foldl
    (fun (st : List R × List R × ℕ) i =>
      let j := p1AdvanceJ st.2.2 (n >>> 1)
      if i < j then
        (((st.1.set i (getR st.1 j)).set j (getR st.1 i)),
         ((st.2.1.set i (getR st.2.1 j)).set j (getR st.2.1 i)), j)
      else (st.1, st.2.1, j))
    (re, im, 0)
  (final.1, final.2.1)

/-- One butterfly of `fftRadix2` in `src/unnamed/part_001`, written out over
the split arrays exactly as the source computes `u`, `v` and the updates. -/
def p1BfStep (i half : ℕ) (wRe wIm : R) (st : List R × List R) (j : ℕ) :
    List R × List R :=
  let uRe := getR st.1 (i + j)
  let uIm := getR st.2 (i + j)
  let vRe := getR st.1 (i + j + half) * wRe - getR st.2 (i + j + half) * wIm
  let vIm := getR st.1 (i + j + half) * wIm + getR st.2 (i + j + half) * wRe
  ((st.1.set (i + j) (uRe + vRe)).set (i + j + half) (uRe - vRe),
   (st.2.set (i + j) (uIm + vIm)).set (i + j + half) (uIm - vIm))

/-- The inner `j` loop of one block of `fftRadix2` in `src/unnamed/part_001`:
`w` starts at `1 + 0i` and is rotated by `wlen` after each butterfly;
`half = len >> 1`. -/
def p1BfBlock (wlenRe wlenIm : R) (half i : ℕ) (st : List R × List R) :
    List R × List R :=
  ((List.range half).foldl
    (fun acc j =>
      (p1BfStep i half acc.2.1 acc.2.2 acc.1 j,
       (acc.2.1 * wlenRe - acc.2.2 * wlenIm,
        acc.2.1 * wlenIm + acc.2.2 * wlenRe)))
    (st, ((1 : R), (0 : R)))).1

/-- One stage of `fftRadix2` in `src/unnamed/part_001`:
`ang = (2π/len)·sign`. -/
def p1BfStage (c s : ℚ → R) (sgn : ℚ) (n len : ℕ) (st : List R × List R) :
    List R × List R :=
  let wlenRe := c (2 * sgn / len)
  let wlenIm := s (2 * sgn / len)
  (List.range ((n + len - 1) / len)).foldl
    (fun acc b => p1BfBlock wlenRe wlenIm (len >>> 1) (b * len) acc) st

/-- `fftRadix2(re, im, inverse, normalize)` from `src/unnamed/part_001`:
in-place bit-reversal swaps, butterfly stages, and a division of every
entry by `n` exactly when the `normalize` flag is set. -/
def p1FftRadix2 (c s : ℚ → R) (re im : List R) (inverse normalize : Bool) :
    List R × List R :=
  let n := re.length
  let st2 := (List.range (Nat.log 2 n)).foldl
    (fun acc k => p1BfStage c s (dirSign inverse) n (2 ^ (k + 1)) acc)
    (p1BitrevSwaps re im)
  if normalize then (st2.1.map (· / (n : R)), st2.2.map (· / (n : R)))
  else st2

/-- `bluestein(re, im, inverse)` from `src/unnamed/part_001`:
`m = nextPow2(2n−1)`; the loop builds `a[k] = x[k]·(cos − i·sin)` and the
symmetric chirp `b`; convolution through two forward `fftRadix2` calls, a
pointwise product, and an inverse `fftRadix2` with `normalize = true`
("Inverse FFT with normalization to get true convolution"); the final loop
multiplies by `(cos − i·sin)` again. -/
def p1Bluestein (c s : ℚ → R) (re im : List R) (inverse : Bool) :
    List R × List R :=
  let n := re.length
  let m := p1NextPow2 (2 * n - 1)
  let sgn : ℚ := if inverse then 1 else -1
  let built := (List.range n).foldl
    (fun (acc : List R × List R × List R × List R) (k : ℕ) =>
      let cosv := c (sgn * k * k / n)
      let sinv := s (sgn * k * k / n)
      let aRe := acc.1.set k (getR re k * cosv + getR im k * sinv)
      let aIm := acc.2.1.set k (getR im k * cosv - getR re k * sinv)
      let bRe := (acc.2.2.1.set k cosv)
      let bIm := (acc.2.2.2.set k sinv)
      (aRe, aIm,
       (if k ≠ 0 then bRe.set (m - k) cosv else bRe),
       (if k ≠ 0 then bIm.set (m - k) sinv else bIm)))
    (List.replicate m 0, List.replicate m 0, List.replicate m 0,
     List.replicate m 0)
  let a1 := p1FftRadix2 c s built.1 built.2.1 false false
  let b1 := p1FftRadix2 c s built.2.2.1 built.2.2.2 false false
  let conv := p1FftRadix2 c s
    ((List.range m).map (fun i =>
      getR a1.1 i * getR b1.1 i - getR a1.2 i * getR b1.2 i))
    ((List.range m).map (fun i =>
      getR a1.1 i * getR b1.2 i + getR a1.2 i * getR b1.1 i))
    true true
  ((List.range n).map (fun k =>
      getR conv.1 k * c (sgn * k * k / n) + getR conv.2 k * s (sgn * k * k / n)),
   (List.range n).map (fun k =>
      getR conv.2 k * c (sgn * k * k / n) - getR conv.1 k * s (sgn * k * k / n)))

/-- `fftRadix2` of `src/unnamed/part_001` with `normalize = true` is its
unnormalized run followed by the division of every entry by `n`: the
division is controlled by the caller's flag, matching the spec's
"normalization is the caller's responsibility" convention. -/
theorem p1FftRadix2_normalize_flag (c s : ℚ → R) (re im : List R)
    (inverse : Bool) :
    p1FftRadix2 c s re im inverse true =
      ((p1FftRadix2 c s re im inverse false).1.map (· / (re.length : R)),
       (p1FftRadix2 c s re im inverse false).2.map (· / (re.length : R))) := by
  unfold p1FftRadix2
  simp

/-- State-passing embedding of `fftPow2` (`src/js/fft.js`) for the frame
property: the reachable arrays are the caller's `input` and the locally
allocated `result`; every assignment in the source targets `result` (and
`result[i]` is initialized with `new Complex(input[j].real, input[j].imag)`,
a fresh object, not an alias), so the translation threads `input` through
and returns it alongside the result. -/
def fftPow2Frame (c s : ℚ → R) (input : List (Cx R)) (inverse : Bool) :
    List (Cx R) × List (Cx R) :=
  let n := input.length
  if n ≤ 1 then (input.map (fun x => ⟨x.re, x.im⟩), input)
  else
    let bits := Nat.clog 2 n
    let arr := (List.range n).map (fun i => getC input (bitRevIndex bits i))
    (butterflies c s (dirSign inverse) n arr, input)

/-- State-passing embedding of `fft1d` (`src/js/sketch.js`) for the frame
property, exactly as `fftPow2Frame`. -/
def sketchFft1dFrame (c s : ℚ → R) (input : List (Cx R)) (inverse : Bool) :
    List (Cx R) × List (Cx R) :=
  let n := input.length
  if n ≤ 1 then (input.map (fun x => ⟨x.re, x.im⟩), input)
  else
    let bits := Nat.log 2 n
    let arr := (List.range n).map (fun i => getC input (bitRevIndex bits i))
    (butterflies c s (dirSign inverse) n arr, input)

end TeaLeaf

namespace TeaLeaf

variable {K : Type} [LinearOrderedField K]

/-- The threshold loop of `generateTeaLeaf` in `src/unnamed/part_000`
(first document): `threshold = NUM_PIXELS * NUM_PIXELS / 2` and the bit
pushed for `(row, col)` is `spatialData[row][col].re > threshold`, in
row-major order. -/
def p0v1Threshold (n : ℕ) (spatialData : List (List (Cx K))) : List Bool :=
  ((List.range n).map (fun row => (List.range n).map (fun col =>
    decide ((getC2 spatialData row col).re > ((n : K) * n) / 2)))).flatten

/-- The spatial field of `generateTeaLeaf` in `src/unnamed/part_000` (first
document): noise → forward `fft2d` → mask → inverse `fft2d` (this variant's
`fft2d` normalizes the inverse by `1/n²`). -/
def p0v1SpatialData (c s : ℚ → K) (seed n cutoff : ℕ) :
    Except String (List (List (Cx K))) := do
  let freqData ← p0v1Fft2d c s (p0v1NoiseField seed n) n n false
  p0v1Fft2d c s (p0v1ApplyMask cutoff n freqData) n n true

/-- `generateTeaLeaf` from `src/unnamed/part_000` (first document): the
boolean list obtained by thresholding the spatial field. -/
def p0v1GenerateTeaLeaf (c s : ℚ → K) (seed n cutoff : ℕ) :
    Except String (List Bool) :=
  Except.map (p0v1Threshold n) (p0v1SpatialData c s seed n cutoff)

/-- The per-pixel decision of `renderTeaLeaf` in `src/web/sketch.js`:
`outRe[i] > threshold` with `threshold = (n * n) / 2`; only the real-part
array `outRe` is passed in, the imaginary array is never consulted. -/
def webThresholdBits (n : ℕ) (outRe : List K) : List Bool :=
  outRe.map (fun v => decide (v > ((n : K) * n) / 2))

end TeaLeaf

namespace TeaLeaf

/-- The test `(N & (N - 1)) === 0` used by `bluesteinFFT` and the recursive
`fft1d` recognizes exactly the powers of two among the positive lengths. -/
theorem land_pred_zero_iff : ∀ n : ℕ, 1 ≤ n →
    (n &&& (n - 1) = 0 ↔ ∃ k, n = 2 ^ k) := by
  intro n
  induction n using Nat.strong_induction_on with
  | _ n ih =>
    intro h1
    rcases Nat.even_or_odd n with he | ho
    · obtain ⟨m, hm⟩ := he
      have hm1 : 1 ≤ m := by omega
      have hsplit : n &&& (n - 1) = Nat.bit false (m &&& (m - 1)) := by
        rw [show n - 1 = Nat.bit true (m - 1) by rw [Nat.bit_val]; simp; omega,
            show n = Nat.bit false m by rw [Nat.bit_val]; simp; omega,
            Nat.land_bit]
        rfl
      constructor
      · intro h0
        rw [hsplit, Nat.bit_eq_zero_iff] at h0
        obtain ⟨k, hk⟩ := (ih m (by omega) hm1).mp h0.1
        exact ⟨k + 1, by rw [show n = 2 * m by omega, hk]; ring⟩
      · rintro ⟨k, hk⟩
        have hk1 : 1 ≤ k := by
          rcases Nat.eq_zero_or_pos k with h | h
          · subst h; simp at hk; omega
          · exact h
        have hmk : m = 2 ^ (k - 1) := by
          have h2 : 2 * m = 2 * 2 ^ (k - 1) := by
            rw [show n = 2 * m by omega] at hk
            rw [hk, ← pow_succ']
            congr 1
            omega
          omega
        rw [hsplit, Nat.bit_eq_zero_iff]
        exact ⟨(ih m (by omega) hm1).mpr ⟨k - 1, hmk⟩, rfl⟩
    · obtain ⟨m, hm⟩ := ho
      have hsplit : n &&& (n - 1) = Nat.bit false (m &&& m) := by
        rw [show n - 1 = Nat.bit false m by rw [Nat.bit_val]; simp; omega,
            show n = Nat.bit true m by rw [Nat.bit_val]; simp; omega,
            Nat.land_bit]
        rfl
      have hmm : m &&& m = m := by
        apply Nat.eq_of_testBit_eq
        intro i
        simp [Nat.testBit_land]
      constructor
      · intro h0
        rw [hsplit, hmm, Nat.bit_eq_zero_iff] at h0
        exact ⟨0, by omega⟩
      · rintro ⟨k, hk⟩
        have hk0 : k = 0 := by
          by_contra hc
          have : 2 ∣ 2 ^ k := dvd_pow_self 2 hc
          omega
        subst hk0
        simp at hk
        rw [hsplit, hmm, Nat.bit_eq_zero_iff]
        exact ⟨by omega, rfl⟩

/-- The base-case copy `input.map(x => new Complex(x.real, x.imag))` is the
identity at the level of values. -/
theorem cx_eta_map {R : Type} [Field R] (x : List (Cx R)) :
    x.map (fun z => (⟨z.re, z.im⟩ : Cx R)) = x := by
  induction x with
  | nil => rfl
  | cons a t ih => cases a; simp [ih]

/-- C7: the radix-2 1D transform of `src/unnamed/part_000` (recursive
`fft1d`), given a sequence whose length is at least 2 and not a power of
two, fails with the `InvalidLength` error
(`'FFT size must be a power of 2'`) before producing any output; for
lengths 0 and 1 it returns its input unchanged, as does the `n <= 1` base
case of `fftPow2` in `src/js/fft.js`. -/
theorem c7_radix2_invalid_length {R : Type} [Field R] (c s : ℚ → R)
    (x : List (Cx R)) (inverse : Bool) :
    (2 ≤ x.length → (∀ k, x.length ≠ 2 ^ k) →
      p0v1Fft1d c s x inverse = .error "FFT size must be a power of 2") ∧
    (x.length ≤ 1 →
      p0v1Fft1d c s x inverse = .ok x ∧ fftPow2 c s x inverse = x) := by
  constructor
  · intro h2 hnp
    have hand : x.length &&& (x.length - 1) ≠ 0 := by
      intro h0
      obtain ⟨k, hk⟩ := (land_pred_zero_iff x.length (by omega)).mp h0
      exact hnp k hk
    rw [p0v1Fft1d, dif_neg (by omega), if_pos hand]
  · intro h1
    constructor
    · rw [p0v1Fft1d, dif_pos h1]
    · rw [fftPow2]
      simp only [h1, if_true, if_pos h1]
      exact cx_eta_map x

/-- Witness for `c7_radix2_invalid_length`: length 3 (not a power of two)
errors out; length 1 is returned unchanged by both functions. -/
theorem c7_radix2_invalid_length_witness :
    (p0v1Fft1d (fun _ => (0 : ℚ)) (fun _ => 0) [⟨1, 0⟩, ⟨0, 0⟩, ⟨0, 0⟩] false =
      .error "FFT size must be a power of 2") ∧
    (p0v1Fft1d (fun _ => (0 : ℚ)) (fun _ => 0) [(⟨1, 2⟩ : Cx ℚ)] true =
      .ok [⟨1, 2⟩]) ∧
    (fftPow2 (fun _ => (0 : ℚ)) (fun _ => 0) [(⟨1, 2⟩ : Cx ℚ)] true = [⟨1, 2⟩]) := by
  have h3 : ∀ k : ℕ, (3 : ℕ) ≠ 2 ^ k := by
    intro k
    rcases k with _ | k
    · norm_num
    rcases k with _ | k
    · norm_num
    have h4 : 4 ≤ 2 ^ (k + 2) := by
      calc (4 : ℕ) = 2 ^ 2 := by norm_num
      _ ≤ 2 ^ (k + 2) := Nat.pow_le_pow_right (by norm_num) (by omega)
    omega
  refine ⟨(c7_radix2_invalid_length _ _ _ _).1 (by norm_num) ?_,
    ((c7_radix2_invalid_length _ _ _ _).2 (by norm_num)).1,
    ((c7_radix2_invalid_length _ _ _ _).2 (by norm_num)).2⟩
  simpa using h3

/-- Reading a mapped list through `getD` commutes with the map when the
default is preserved. -/
theorem getC_map_divS {R : Type} [Field R] (l : List (Cx R)) (t : R) (i : ℕ) :
    getC (l.map (fun z => z.divS t)) i = (getC l i).divS t := by
  unfold getC
  simp only [List.getD_eq_getElem?_getD, List.getElem?_map]
  cases l[i]? <;> simp [Cx.divS]

/-- Dividing both components by a nonzero scalar and multiplying the product
back by it is the identity. -/
theorem mul_divS_scale {R : Type} [Field R] (a z : Cx R) (t : R) (ht : t ≠ 0) :
    (a.mul (z.divS t)).scale t = a.mul z := by
  cases a; cases z
  simp only [Cx.mul, Cx.divS, Cx.scale, Cx.mk.injEq]
  constructor <;> field_simp

/-- On every non-power-of-two length, `bluesteinFFT` of `src/js/fft.js`
computes exactly `M` times the spec's normalized Bluestein output: the only
difference between the two code paths is the omitted division of the
convolution result by `M`. -/
theorem bluestein_scale_helper {R : Type} [Field R] (c s : ℚ → R)
    (x : List (Cx R)) (inverse : Bool)
    (hnp : ¬ x.length &&& (x.length - 1) = 0)
    (hM : ((jsNextPowerOf2 (2 * x.length - 1) : ℕ) : R) ≠ 0) :
    jsBluesteinFFT c s x inverse =
      (specBluesteinFFT c s x inverse).map
        (fun z => z.scale ((jsNextPowerOf2 (2 * x.length - 1) : ℕ) : R)) := by
  simp only [jsBluesteinFFT, specBluesteinFFT, if_neg hnp]
  rw [List.map_map]
  apply List.map_congr_left
  intro k _
  simp only [Function.comp_apply, getC_map_divS]
  exact (mul_divS_scale _ _ _ hM).symm

/-- C1: in the Bluestein path of `src/js/fft.js` (`bluesteinFFT`, every
length `N ≥ 1` that is not a power of two, both directions), the entries of
the convolution result are NOT divided by `M = nextPowerOf2(2N−1)`: the
returned sequence is exactly `M` times the sequence produced by the spec's
step 5 (which divides every entry of `C` by `M`), hence `M` times the
DFT / unnormalized inverse DFT the claim describes. -/
theorem c1_bluestein_missing_normalization {R : Type} [Field R] (c s : ℚ → R)
    (x : List (Cx R)) (inverse : Bool)
    (h1 : 1 ≤ x.length) (h2 : ∀ k, x.length ≠ 2 ^ k)
    (hM : ((jsNextPowerOf2 (2 * x.length - 1) : ℕ) : R) ≠ 0) :
    jsBluesteinFFT c s x inverse =
      (specBluesteinFFT c s x inverse).map
        (fun z => z.scale ((jsNextPowerOf2 (2 * x.length - 1) : ℕ) : R)) := by
  apply bluestein_scale_helper c s x inverse ?_ hM
  intro h0
  obtain ⟨k, hk⟩ := (land_pred_zero_iff x.length h1).mp h0
  exact h2 k hk

/-- Witness for `c1_bluestein_missing_normalization` at the concrete input
`[1, 0, 0]` (length 3, not a power of two, `M = 4`) over `ℚ`. -/
theorem c1_bluestein_missing_normalization_witness :
    jsBluesteinFFT (fun _ => (0 : ℚ)) (fun _ => 0)
        [⟨1, 0⟩, ⟨0, 0⟩, ⟨0, 0⟩] false =
      (specBluesteinFFT (fun _ => (0 : ℚ)) (fun _ => 0)
          [⟨1, 0⟩, ⟨0, 0⟩, ⟨0, 0⟩] false).map
        (fun z => z.scale ((jsNextPowerOf2 (2 * 3 - 1) : ℕ) : ℚ)) := by
  have h3 : ∀ k : ℕ, (3 : ℕ) ≠ 2 ^ k := by
    intro k
    rcases k with _ | k
    · norm_num
    rcases k with _ | k
    · norm_num
    have h4 : 4 ≤ 2 ^ (k + 2) := by
      calc (4 : ℕ) = 2 ^ 2 := by norm_num
      _ ≤ 2 ^ (k + 2) := Nat.pow_le_pow_right (by norm_num) (by omega)
    omega
  have hM : ((jsNextPowerOf2 (2 * 3 - 1) : ℕ) : ℚ) ≠ 0 := by
    have : jsNextPowerOf2 5 = 8 := by
      rw [jsNextPowerOf2]
      norm_num [Nat.clog]
    norm_num [this]
  exact c1_bluestein_missing_normalization (fun _ => (0 : ℚ)) (fun _ => 0)
    [⟨1, 0⟩, ⟨0, 0⟩, ⟨0, 0⟩] false (by norm_num) (by simpa using h3) hM

/-- The impulse input of the N = 5 test scenario, as real-only values. -/
def impulse5 (R : Type) [Field R] : List (Cx R) :=
  [⟨1, 0⟩, ⟨0, 0⟩, ⟨0, 0⟩, ⟨0, 0⟩, ⟨0, 0⟩]

/-- C5: for the length-5 impulse `[1,0,0,0,0]`, the forward `bluesteinFFT`
of `src/js/fft.js` returns exactly `16` times the spec's normalized
Bluestein output (`M = nextPowerOf2(9) = 16`), because the division of the
convolution by `M` is missing; the mathematical value of the normalized
output is the flat spectrum `(1,0), …`, so the code returns `(16,0), …`
instead of the claimed `(1,0), …`. -/
theorem c5_bluestein_impulse_scaled {R : Type} [Field R] (c s : ℚ → R)
    (hM : (16 : R) ≠ 0) :
    jsBluesteinFFT c s (impulse5 R) false =
      (specBluesteinFFT c s (impulse5 R) false).map
        (fun z => z.scale (16 : R)) := by
  have hlen : (impulse5 R).length = 5 := by rfl
  have hM16 : jsNextPowerOf2 (2 * (impulse5 R).length - 1) = 16 := by
    rw [hlen, jsNextPowerOf2]
    norm_num [Nat.clog]
  have h5 : ∀ k : ℕ, (impulse5 R).length ≠ 2 ^ k := by
    rw [hlen]
    intro k
    rcases k with _ | k
    · norm_num
    rcases k with _ | k
    · norm_num
    rcases k with _ | k
    · norm_num
    have h8 : 8 ≤ 2 ^ (k + 3) := by
      calc (8 : ℕ) = 2 ^ 3 := by norm_num
      _ ≤ 2 ^ (k + 3) := Nat.pow_le_pow_right (by norm_num) (by omega)
    omega
  have := bluestein_scale_helper c s (impulse5 R) false
    (by
      intro h0
      obtain ⟨k, hk⟩ := (land_pred_zero_iff (impulse5 R).length (by rw [hlen]; norm_num)).mp h0
      exact h5 k hk)
    (by rw [hM16]; exact_mod_cast hM)
  rw [this, hM16]
  norm_num

/-- Witness for `c5_bluestein_impulse_scaled` over `ℚ`. -/
theorem c5_bluestein_impulse_scaled_witness :
    jsBluesteinFFT (fun _ => (0 : ℚ)) (fun _ => 0) (impulse5 ℚ) false =
      (specBluesteinFFT (fun _ => (0 : ℚ)) (fun _ => 0) (impulse5 ℚ) false).map
        (fun z => z.scale (16 : ℚ)) :=
  c5_bluestein_impulse_scaled (fun _ => (0 : ℚ)) (fun _ => 0) (by norm_num)

/-- C4: over the real-number semantics (`Real.cos` / `Real.sin` of the
rational multiples of π), the inverse of `fft1d` from `src/js/sketch.js` on
`[(1,0),(0,0)]` is the unnormalized `[(1,0),(1,0)]`, but the iterative
`fft1d` of `src/unnamed/part_000` divides every entry by `n` and returns
`[(1/2,0),(1/2,0)]` on the same input: the division by `N` that the claim
rules out does happen inside that component. -/
theorem c4_p000_inverse_divides_by_n :
    sketchFft1d (fun q => Real.cos (q * Real.pi)) (fun q => Real.sin (q * Real.pi))
        [⟨1, 0⟩, ⟨0, 0⟩] true = [⟨1, 0⟩, ⟨1, 0⟩] ∧
    p0v2Fft1d (fun q => Real.cos (q * Real.pi)) (fun q => Real.sin (q * Real.pi))
        [⟨1, 0⟩, ⟨0, 0⟩] true = [⟨(1 : ℝ) / 2, 0⟩, ⟨1 / 2, 0⟩] := by
  have hlog : Nat.log 2 2 = 1 := by norm_num [Nat.log]
  constructor <;>
  · simp only [sketchFft1d, p0v2Fft1d, butterflies, bfStage, bfBlock, bfStep,
      bitRevIndex, getC, dirSign, List.length_cons, List.length_nil, hlog]
    norm_num [List.range_succ, Cx.mul, Cx.add, Cx.sub, Cx.scale]

/-- Reading `mapIdx` at an in-bounds index applies the function there. -/
theorem getD_mapIdx {α : Type} (l : List α) (f : ℕ → α → α) (i : ℕ) (d : α)
    (h : i < l.length) :
    (l.mapIdx f).getD i d = f i (l.getD i d) := by
  rw [List.getD_eq_getElem?_getD, List.getD_eq_getElem?_getD,
      List.getElem?_eq_getElem (by simpa using h), List.getElem?_eq_getElem h]
  simp [List.getElem_mapIdx]

/-- C3 counterexample: for N = 4, cutoff 1, the entry (row, col) = (3, 0)
satisfies the claim's inclusive zeroing condition (1 ≤ 3 ∧ 3 ≤ 4 − 1), yet
`masked` of `src/js/sketch.js` — one of the claim's cited sources — returns
`false` for it (its upper bound is the strict `row < n - cutoff`), so the
entry is not zeroed there. -/
theorem c3_sketch_masked_inclusive_fails :
    sketchMasked 1 4 3 0 = false ∧ webMasked 1 4 3 0 = true ∧
      (1 ≤ 3 ∧ 3 ≤ 4 - 1) := by decide

/-- C3 amended: `masked` of `src/web/sketch.js` (and of both documents of
`src/unnamed/part_000`) zeroes exactly the entries with
`c ≤ row ≤ N−c` OR `c ≤ col ≤ N−c` (inclusive upper bound), leaving every
other entry unchanged, and for N = 4, c = 1 it leaves only (0,0) nonzero;
`masked` of `src/js/sketch.js` instead uses the strict upper bound
`row < N−c` / `col < N−c`. -/
theorem c3_mask_boundary_amended {R : Type} [Field R] :
    (∀ cutoff n row col, webMasked cutoff n row col = true ↔
      ((cutoff ≤ row ∧ row ≤ n - cutoff) ∨ (cutoff ≤ col ∧ col ≤ n - cutoff))) ∧
    (∀ cutoff n row col, sketchMasked cutoff n row col = true ↔
      ((cutoff ≤ row ∧ row < n - cutoff) ∨ (cutoff ≤ col ∧ col < n - cutoff))) ∧
    (∀ (cutoff n : ℕ) (re im : List R) (i : ℕ), i < re.length →
      (webApplyFrequencyMask cutoff n re im).1.getD i 0 =
        if webMasked cutoff n (i / n) (i % n) then 0 else re.getD i 0) ∧
    (∀ (cutoff n : ℕ) (re im : List R) (i : ℕ), i < im.length →
      (webApplyFrequencyMask cutoff n re im).2.getD i 0 =
        if webMasked cutoff n (i / n) (i % n) then 0 else im.getD i 0) ∧
    (∀ row col, row < 4 → col < 4 →
      (webMasked 1 4 row col = false ↔ row = 0 ∧ col = 0)) := by
  refine ⟨?_, ?_, ?_, ?_, ?_⟩
  · intro cutoff n row col
    simp [webMasked]
  · intro cutoff n row col
    simp [sketchMasked]
  · intro cutoff n re im i h
    rw [webApplyFrequencyMask]
    exact getD_mapIdx re _ i 0 h
  · intro cutoff n re im i h
    rw [webApplyFrequencyMask]
    exact getD_mapIdx im _ i 0 h
  · intro row col hr hc
    interval_cases row <;> interval_cases col <;> decide

/-- Witness for `c3_mask_boundary_amended` at concrete values over `ℚ`:
index 3 of a length-4 row with n = 2 is masked and zeroed. -/
theorem c3_mask_boundary_amended_witness :
    (webMasked 1 4 3 0 = true ↔
      ((1 ≤ 3 ∧ 3 ≤ 4 - 1) ∨ (1 ≤ 0 ∧ 0 ≤ 4 - 1))) ∧
    ((webApplyFrequencyMask 1 2 [(5 : ℚ), 6, 7, 8] [0, 0, 0, 0]).1.getD 3 0 =
      if webMasked 1 2 (3 / 2) (3 % 2) then 0 else ([(5 : ℚ), 6, 7, 8]).getD 3 0) ∧
    (webMasked 1 4 0 0 = false ↔ (0 = 0 ∧ 0 = 0)) := by
  refine ⟨(@c3_mask_boundary_amended ℚ _).1 1 4 3 0,
    (@c3_mask_boundary_amended ℚ _).2.2.1 1 2 [(5 : ℚ), 6, 7, 8] [0, 0, 0, 0] 3
      (by norm_num),
    (@c3_mask_boundary_amended ℚ _).2.2.2.2 0 0 (by norm_num) (by norm_num)⟩

/-- Reading a `List.range` map at an in-bounds index gives the function
value. -/
theorem getD_range_map {α : Type} (f : ℕ → α) (n i : ℕ) (d : α) (h : i < n) :
    ((List.range n).map f).getD i d = f i := by
  rw [List.getD_eq_getElem?_getD, List.getElem?_map]
  simp [List.getElem?_range, h]

/-- The outputs of `mulberry32` are 32-bit values. -/
theorem mbOut_lt (seedVal : ℕ) : mbOut seedVal < 2 ^ 32 := by
  rw [mbOut]
  exact Nat.mod_lt _ (by norm_num)

/-- A natural number that is at most 1 casts to 0 or 1 in any field. -/
theorem natCast_zero_or_one {R : Type} [Field R] (v : ℕ) (h : v ≤ 1) :
    ((v : ℕ) : R) = 0 ∨ ((v : ℕ) : R) = 1 := by
  rcases Nat.le_one_iff_eq_zero_or_eq_one.mp h with h0 | h0 <;> rw [h0] <;> simp

/-- C9: every entry of the noise field handed to the forward transform has
real component 0 or 1 and imaginary component exactly 0, for every seed:
`rand() & 1` in `src/web/sketch.js`, `Math.floor(rand() * 2)` in
`src/js/sketch.js` (with zero padding outside the noise corner), and
`rng() < 0.5 ? 0 : 1` in `src/unnamed/part_000`. -/
theorem c9_noise_field_binary {R : Type} [Field R] :
    (∀ seed total i, i < total →
      (((@webFillRandomBinary R _ seed total).1.getD i 0 = 0 ∨
        (@webFillRandomBinary R _ seed total).1.getD i 0 = 1) ∧
        (@webFillRandomBinary R _ seed total).2.getD i 0 = 0)) ∧
    (∀ seed numPixels fftSize i j, i < fftSize → j < fftSize →
      (((getC2 (@jsSketchNoiseField R _ seed numPixels fftSize) i j).re = 0 ∨
        (getC2 (@jsSketchNoiseField R _ seed numPixels fftSize) i j).re = 1) ∧
        (getC2 (@jsSketchNoiseField R _ seed numPixels fftSize) i j).im = 0)) ∧
    (∀ seed n row col, row < n → col < n →
      (((getC2 (@p0v1NoiseField R _ seed n) row col).re = 0 ∨
        (getC2 (@p0v1NoiseField R _ seed n) row col).re = 1) ∧
        (getC2 (@p0v1NoiseField R _ seed n) row col).im = 0)) := by
  refine ⟨?_, ?_, ?_⟩
  · intro seed total i h
    rw [webFillRandomBinary]
    rw [getD_range_map _ total i 0 h, getD_range_map _ total i 0 h]
    refine ⟨?_, rfl⟩
    apply natCast_zero_or_one
    have h2 : pmVal seed i &&& 1 = pmVal seed i % 2 := Nat.and_one_is_mod _
    rw [h2]
    omega
  · intro seed numPixels fftSize i j hi hj
    rw [jsSketchNoiseField]
    unfold getC2 getC
    rw [getD_range_map _ fftSize i [] hi, getD_range_map _ fftSize j _ hj]
    by_cases hc : i < numPixels ∧ j < numPixels
    · rw [if_pos hc]
      refine ⟨?_, rfl⟩
      apply natCast_zero_or_one
      have hb := mbOut_lt (seed + (i * numPixels + j + 1) * 0x6D2B79F5)
      unfold mbVal
      norm_num at hb ⊢
      omega
    · rw [if_neg hc]
      exact ⟨Or.inl rfl, rfl⟩
  · intro seed n row col hr hc
    rw [p0v1NoiseField]
    unfold getC2 getC
    rw [getD_range_map _ n row [] hr, getD_range_map _ n col _ hc]
    by_cases h0 : mbVal seed (row * n + col) < 2 ^ 31
    · rw [if_pos h0]
      exact ⟨Or.inl (by norm_num), rfl⟩
    · rw [if_neg h0]
      exact ⟨Or.inr (by norm_num), rfl⟩

/-- Witness for `c9_noise_field_binary` at seed 0 on 1-element fields. -/
theorem c9_noise_field_binary_witness :
    (((@webFillRandomBinary ℚ _ 0 1).1.getD 0 0 = 0 ∨
      (@webFillRandomBinary ℚ _ 0 1).1.getD 0 0 = 1) ∧
      (@webFillRandomBinary ℚ _ 0 1).2.getD 0 0 = 0) ∧
    (((getC2 (@jsSketchNoiseField ℚ _ 0 1 1) 0 0).re = 0 ∨
      (getC2 (@jsSketchNoiseField ℚ _ 0 1 1) 0 0).re = 1) ∧
      (getC2 (@jsSketchNoiseField ℚ _ 0 1 1) 0 0).im = 0) ∧
    (((getC2 (@p0v1NoiseField ℚ _ 0 1) 0 0).re = 0 ∨
      (getC2 (@p0v1NoiseField ℚ _ 0 1) 0 0).re = 1) ∧
      (getC2 (@p0v1NoiseField ℚ _ 0 1) 0 0).im = 0) :=
  ⟨(@c9_noise_field_binary ℚ _).1 0 1 0 (by norm_num),
   (@c9_noise_field_binary ℚ _).2.1 0 1 1 0 0 (by norm_num) (by norm_num),
   (@c9_noise_field_binary ℚ _).2.2 0 1 0 0 (by norm_num) (by norm_num)⟩

/-- Row-major indexing into the flattening of a list of uniform-length
rows. -/
theorem flatten_getD_uniform {α : Type} (k : ℕ) (d : α) :
    ∀ (L : List (List α)) (r c₀ : ℕ), (∀ l ∈ L, l.length = k) →
      r < L.length → c₀ < k →
      L.flatten.getD (r * k + c₀) d = (L.getD r []).getD c₀ d := by
  intro L
  induction L with
  | nil => intro r c₀ _ hr _; simp at hr
  | cons l t ih =>
    intro r c₀ hk hr hc
    rcases r with _ | r
    · have hl : l.length = k := hk l (List.mem_cons_self l t)
      simp only [List.flatten_cons, Nat.zero_mul, Nat.zero_add]
      rw [List.getD_eq_getElem?_getD, List.getD_eq_getElem?_getD,
          List.getElem?_append]
      simp [hl, hc]
    · have hl : l.length = k := hk l (List.mem_cons_self l t)
      have hge : l.length ≤ (r + 1) * k + c₀ := by
        rw [hl]
        calc k ≤ (r + 1) * k := Nat.le_mul_of_pos_left k (by omega)
        _ ≤ (r + 1) * k + c₀ := Nat.le_add_right _ _
      simp only [List.flatten_cons]
      rw [List.getD_eq_getElem?_getD, List.getElem?_append,
          if_neg (by omega), ← List.getD_eq_getElem?_getD _ _ d]
      have harith : (r + 1) * k + c₀ - l.length = r * k + c₀ := by
        rw [hl]; ring_nf; omega
      rw [harith, ih r c₀ (fun l2 h2 => hk l2 (List.mem_cons_of_mem _ h2))
        (by simpa using hr) hc]
      rfl

/-- C8: in `src/unnamed/part_000` (first document) `generateTeaLeaf` is the
thresholding of its inverse-transformed spatial field, the bit at row-major
position `r * n + c₀` is exactly `re > n²/2`, and the decision depends only
on the real components (two fields with equal real parts threshold
identically); the per-pixel decision of `renderTeaLeaf` in
`src/web/sketch.js` likewise compares only `outRe[i]` against `n²/2`. -/
theorem c8_threshold_real_only {K : Type} [LinearOrderedField K] :
    (∀ (c s : ℚ → K) (seed n cutoff : ℕ),
      p0v1GenerateTeaLeaf c s seed n cutoff =
        Except.map (p0v1Threshold n) (p0v1SpatialData c s seed n cutoff)) ∧
    (∀ (n : ℕ) (A B : List (List (Cx K))),
      (∀ r c₀, (getC2 A r c₀).re = (getC2 B r c₀).re) →
      p0v1Threshold n A = p0v1Threshold n B) ∧
    (∀ (n : ℕ) (sp : List (List (Cx K))) (r c₀ : ℕ), r < n → c₀ < n →
      (p0v1Threshold n sp).getD (r * n + c₀) false =
        decide ((getC2 sp r c₀).re > ((n : K) * n) / 2)) ∧
    (∀ (n : ℕ) (outRe : List K) (i : ℕ), i < outRe.length →
      (webThresholdBits n outRe).getD i false =
        decide (outRe.getD i 0 > ((n : K) * n) / 2)) := by
  refine ⟨fun _ _ _ _ _ => rfl, ?_, ?_, ?_⟩
  · intro n A B h
    unfold p0v1Threshold
    congr 1
    apply List.map_congr_left
    intro row _
    apply List.map_congr_left
    intro col _
    rw [h row col]
  · intro n sp r c₀ hr hc
    unfold p0v1Threshold
    rw [flatten_getD_uniform n false _ r c₀
      (by
        intro l hl
        obtain ⟨row, _, hrow⟩ := List.mem_map.mp hl
        simp [← hrow])
      (by simpa using hr) hc]
    rw [getD_range_map _ n r [] hr, getD_range_map _ n c₀ _ hc]
  · intro n outRe i h
    unfold webThresholdBits
    rw [List.getD_eq_getElem?_getD, List.getElem?_map,
        List.getElem?_eq_getElem h]
    rw [List.getD_eq_getElem?_getD, List.getElem?_eq_getElem h]
    simp

/-- Witness for `c8_threshold_real_only` over `ℚ` at a 1×1 field. -/
theorem c8_threshold_real_only_witness :
    ((p0v1Threshold 1 [[(⟨3, 7⟩ : Cx ℚ)]]).getD (0 * 1 + 0) false =
      decide ((getC2 [[(⟨3, 7⟩ : Cx ℚ)]] 0 0).re > ((1 : ℚ) * 1) / 2)) ∧
    (p0v1Threshold 1 [[(⟨3, 7⟩ : Cx ℚ)]] =
      p0v1Threshold 1 [[(⟨3, -7⟩ : Cx ℚ)]]) ∧
    ((webThresholdBits 1 [(3 : ℚ)]).getD 0 false =
      decide (([(3 : ℚ)]).getD 0 0 > ((1 : ℚ) * 1) / 2)) := by
  refine ⟨(@c8_threshold_real_only ℚ _).2.2.1 1 [[⟨3, 7⟩]] 0 0 (by norm_num)
      (by norm_num),
    (@c8_threshold_real_only ℚ _).2.1 1 [[⟨3, 7⟩]] [[⟨3, -7⟩]] ?_,
    (@c8_threshold_real_only ℚ _).2.2.2 1 [(3 : ℚ)] 0 (by norm_num)⟩
  intro r c₀
  rcases r with _ | r <;> rcases c₀ with _ | c₀ <;>
    simp [getC2, getC, List.getD]

/-- A fold whose step preserves list length preserves list length. -/
theorem foldl_length_const {R : Type} [Field R] {α : Type}
    (f : List (Cx R) → α → List (Cx R))
    (hf : ∀ a x, (f a x).length = a.length) :
    ∀ (l : List α) (a : List (Cx R)), (l.foldl f a).length = a.length := by
  intro l
  induction l with
  | nil => intro a; rfl
  | cons x t ih => intro a; rw [List.foldl_cons, ih, hf]

/-- A butterfly block leaves the array length unchanged. -/
theorem length_bfBlock {R : Type} [Field R] (wlen : Cx R) (half i : ℕ)
    (arr : List (Cx R)) : (bfBlock wlen half i arr).length = arr.length := by
  unfold bfBlock
  suffices h : ∀ (l : List ℕ) (st : List (Cx R) × Cx R),
      ((l.foldl (fun st j => (bfStep i half st.2 st.1 j, st.2.mul wlen)) st).1).length
        = st.1.length by
    exact h _ _
  intro l
  induction l with
  | nil => intro st; rfl
  | cons a t ih =>
    intro st
    rw [List.foldl_cons, ih]
    simp [bfStep]

/-- A butterfly stage leaves the array length unchanged. -/
theorem length_bfStage {R : Type} [Field R] (c s : ℚ → R) (sgn : ℚ)
    (n len : ℕ) (arr : List (Cx R)) :
    (bfStage c s sgn n len arr).length = arr.length := by
  unfold bfStage
  exact foldl_length_const _ (fun a b => length_bfBlock _ _ _ a) _ arr

/-- The whole butterfly network leaves the array length unchanged. -/
theorem length_butterflies {R : Type} [Field R] (c s : ℚ → R) (sgn : ℚ)
    (n : ℕ) (arr : List (Cx R)) :
    (butterflies c s sgn n arr).length = arr.length := by
  unfold butterflies
  exact foldl_length_const _ (fun a k => length_bfStage c s sgn n _ a) _ arr

/-- `fft1d` of `src/js/sketch.js` returns as many entries as it is given. -/
theorem length_sketchFft1d {R : Type} [Field R] (c s : ℚ → R)
    (x : List (Cx R)) (d : Bool) : (sketchFft1d c s x d).length = x.length := by
  unfold sketchFft1d
  by_cases h : x.length ≤ 1
  · simp [h]
  · simp only [if_neg h, length_butterflies, List.length_map, List.length_range]

/-- `fftPow2` of `src/js/fft.js` returns as many entries as it is given. -/
theorem length_fftPow2 {R : Type} [Field R] (c s : ℚ → R)
    (x : List (Cx R)) (d : Bool) : (fftPow2 c s x d).length = x.length := by
  unfold fftPow2
  by_cases h : x.length ≤ 1
  · simp [h]
  · simp only [if_neg h, length_butterflies, List.length_map, List.length_range]

/-- C6: no pipeline stage resizes its field.  The 1D transform of
`src/js/sketch.js` preserves length; its `fft2d` returns a square matrix of
the input's side; the noise field is `fftSize × fftSize`; the mask pass
preserves the row count; the masked field and the final inverse-transformed
field of `generateTeaLeaf` are `fftSize × fftSize`, the same side as the
noise field; and in `src/web/sketch.js` the noise arrays, the mask pass and
the threshold bits all keep length `total = n²`. -/
theorem c6_stage_dimensions {K : Type} [LinearOrderedField K] :
    (∀ (c s : ℚ → K) (x : List (Cx K)) d,
      (sketchFft1d c s x d).length = x.length) ∧
    (∀ (c s : ℚ → K) (m : List (List (Cx K))) d,
      (sketchFft2d c s m d).length = m.length ∧
      ∀ row ∈ sketchFft2d c s m d, row.length = m.length) ∧
    (∀ seed numPixels fftSize,
      (@jsSketchNoiseField K _ seed numPixels fftSize).length = fftSize ∧
      ∀ row ∈ @jsSketchNoiseField K _ seed numPixels fftSize,
        row.length = fftSize) ∧
    (∀ (cutoff n : ℕ) (freq : List (List (Cx K))),
      (sketchApplyMask cutoff n freq).length = freq.length) ∧
    (∀ (c s : ℚ → K) (seed numPixels fftSize cutoff : ℕ),
      (sketchMiddle c s seed numPixels fftSize cutoff).length = fftSize ∧
      (sketchGenerateTeaLeaf c s seed numPixels fftSize cutoff).length = fftSize ∧
      ∀ row ∈ sketchGenerateTeaLeaf c s seed numPixels fftSize cutoff,
        row.length = fftSize) ∧
    (∀ seed total, (@webFillRandomBinary K _ seed total).1.length = total ∧
      (@webFillRandomBinary K _ seed total).2.length = total) ∧
    (∀ (cutoff n : ℕ) (re im : List K),
      (webApplyFrequencyMask cutoff n re im).1.length = re.length ∧
      (webApplyFrequencyMask cutoff n re im).2.length = im.length) ∧
    (∀ (n : ℕ) (outRe : List K),
      (webThresholdBits n outRe).length = outRe.length) := by
  have hfft2d : ∀ (c s : ℚ → K) (m : List (List (Cx K))) d,
      (sketchFft2d c s m d).length = m.length ∧
      ∀ row ∈ sketchFft2d c s m d, row.length = m.length := by
    intro c s m d
    unfold sketchFft2d
    refine ⟨by simp, ?_⟩
    intro row hrow
    simp only [List.mem_map, List.mem_range] at hrow
    obtain ⟨i, _, hi⟩ := hrow
    simp [← hi]
  have hnoise : ∀ seed numPixels fftSize,
      (@jsSketchNoiseField K _ seed numPixels fftSize).length = fftSize ∧
      ∀ row ∈ @jsSketchNoiseField K _ seed numPixels fftSize,
        row.length = fftSize := by
    intro seed numPixels fftSize
    unfold jsSketchNoiseField
    refine ⟨by simp, ?_⟩
    intro row hrow
    simp only [List.mem_map, List.mem_range] at hrow
    obtain ⟨i, _, hi⟩ := hrow
    simp [← hi]
  have hmask : ∀ (cutoff n : ℕ) (freq : List (List (Cx K))),
      (sketchApplyMask cutoff n freq).length = freq.length := by
    intro cutoff n freq
    unfold sketchApplyMask
    simp
  refine ⟨fun c s x d => length_sketchFft1d c s x d, hfft2d, hnoise, hmask,
    ?_, ?_, ?_, ?_⟩
  · intro c s seed numPixels fftSize cutoff
    have h1 : (sketchMiddle c s seed numPixels fftSize cutoff).length = fftSize := by
      unfold sketchMiddle
      rw [hmask, (hfft2d c s _ false).1, (hnoise seed numPixels fftSize).1]
    refine ⟨h1, ?_, ?_⟩
    · unfold sketchGenerateTeaLeaf
      rw [(hfft2d c s _ true).1, h1]
    · intro row hrow
      unfold sketchGenerateTeaLeaf at hrow
      have := (hfft2d c s (sketchMiddle c s seed numPixels fftSize cutoff) true).2
        row hrow
      rw [this, h1]
  · intro seed total
    unfold webFillRandomBinary
    simp
  · intro cutoff n re im
    unfold webApplyFrequencyMask
    simp
  · intro n outRe
    unfold webThresholdBits
    simp

/-- Witness for `c6_stage_dimensions` over `ℚ` at small concrete stages. -/
theorem c6_stage_dimensions_witness :
    (sketchFft1d (fun _ => (0 : ℚ)) (fun _ => 0) [⟨1, 0⟩, ⟨0, 0⟩] false).length = 2 ∧
    (sketchGenerateTeaLeaf (fun _ => (0 : ℚ)) (fun _ => 0) 7 2 2 1).length = 2 := by
  refine ⟨?_, ((@c6_stage_dimensions ℚ _).2.2.2.2.1 (fun _ => 0) (fun _ => 0) 7 2 2 1).2.1⟩
  have h := (@c6_stage_dimensions ℚ _).1 (fun _ => (0 : ℚ)) (fun _ => 0)
    [⟨1, 0⟩, ⟨0, 0⟩] false
  simpa using h

/-- C10: in the state-passing embeddings of `fftPow2` (`src/js/fft.js`) and
`fft1d` (`src/js/sketch.js`) — where the caller's `input` array is threaded
through every statement of the body — the returned result is the freshly
built array of the pure embedding and the input component comes back
exactly as it went in: no statement of either source writes to `input` or
to one of its elements (each `result[i]` is a `new Complex(...)` copy, not
an alias). -/
theorem c10_input_array_unchanged {R : Type} [Field R] (c s : ℚ → R)
    (input : List (Cx R)) (inverse : Bool) :
    fftPow2Frame c s input inverse = (fftPow2 c s input inverse, input) ∧
    sketchFft1dFrame c s input inverse = (sketchFft1d c s input inverse, input) := by
  constructor
  · unfold fftPow2Frame fftPow2
    by_cases h : input.length ≤ 1 <;> simp [h]
  · unfold sketchFft1dFrame sketchFft1d
    by_cases h : input.length ≤ 1 <;> simp [h]

/-- Witness for `c10_input_array_unchanged` over `ℚ` at a concrete array. -/
theorem c10_input_array_unchanged_witness :
    fftPow2Frame (fun _ => (0 : ℚ)) (fun _ => 0) [⟨1, 2⟩, ⟨3, 4⟩] true =
      (fftPow2 (fun _ => (0 : ℚ)) (fun _ => 0) [⟨1, 2⟩, ⟨3, 4⟩] true,
        [⟨1, 2⟩, ⟨3, 4⟩]) ∧
    sketchFft1dFrame (fun _ => (0 : ℚ)) (fun _ => 0) [⟨1, 2⟩, ⟨3, 4⟩] true =
      (sketchFft1d (fun _ => (0 : ℚ)) (fun _ => 0) [⟨1, 2⟩, ⟨3, 4⟩] true,
        [⟨1, 2⟩, ⟨3, 4⟩]) :=
  c10_input_array_unchanged (fun _ => (0 : ℚ)) (fun _ => 0) [⟨1, 2⟩, ⟨3, 4⟩] true

section Homogeneity

variable {R : Type} [Field R]

/-- Scaling commutes with the product in its left argument. -/
theorem scale_mul_left (a b : Cx R) (t : R) :
    (a.scale t).mul b = (a.mul b).scale t := by
  simp only [Cx.scale, Cx.mul, Cx.mk.injEq]
  constructor <;> ring

/-- Scaling commutes with the product in its right argument. -/
theorem scale_mul_right (a b : Cx R) (t : R) :
    a.mul (b.scale t) = (a.mul b).scale t := by
  simp only [Cx.scale, Cx.mul, Cx.mk.injEq]
  constructor <;> ring

/-- Scaling distributes over the sum. -/
theorem scale_add (a b : Cx R) (t : R) :
    (a.scale t).add (b.scale t) = (a.add b).scale t := by
  simp only [Cx.scale, Cx.add, Cx.mk.injEq]
  constructor <;> ring

/-- Scaling distributes over the difference. -/
theorem scale_sub (a b : Cx R) (t : R) :
    (a.scale t).sub (b.scale t) = (a.sub b).scale t := by
  simp only [Cx.scale, Cx.sub, Cx.mk.injEq]
  constructor <;> ring

/-- Two scalings compose. -/
theorem scale_scale (a : Cx R) (t u : R) :
    (a.scale t).scale u = a.scale (t * u) := by
  simp only [Cx.scale, Cx.mk.injEq]
  constructor <;> ring

/-- Zero is fixed by scaling. -/
theorem scale_zero_cx (t : R) : (⟨0, 0⟩ : Cx R).scale t = ⟨0, 0⟩ := by
  simp

/-- Reading a scaled array reads the scaled entry. -/
theorem getC_map_scale (l : List (Cx R)) (t : R) (i : ℕ) :
    getC (l.map (fun z => z.scale t)) i = (getC l i).scale t := by
  unfold getC
  simp only [List.getD_eq_getElem?_getD, List.getElem?_map]
  cases l[i]? <;> simp

/-- One butterfly on a scaled array is the scaled butterfly. -/
theorem bfStep_scale (i half : ℕ) (w : Cx R) (arr : List (Cx R)) (j : ℕ)
    (t : R) :
    bfStep i half w (arr.map (fun z => z.scale t)) j =
      (bfStep i half w arr j).map (fun z => z.scale t) := by
  simp only [bfStep, getC_map_scale, scale_mul_left, scale_add, scale_sub,
    ← List.map_set]

/-- A butterfly block on a scaled array is the scaled block. -/
theorem bfBlock_scale (wlen : Cx R) (half i : ℕ) (arr : List (Cx R)) (t : R) :
    bfBlock wlen half i (arr.map (fun z => z.scale t)) =
      (bfBlock wlen half i arr).map (fun z => z.scale t) := by
  unfold bfBlock
  suffices h : ∀ (l : List ℕ) (a : List (Cx R)) (w : Cx R),
      (l.foldl (fun st j => (bfStep i half st.2 st.1 j, st.2.mul wlen))
        (a.map (fun z => z.scale t), w)) =
      (((l.foldl (fun st j => (bfStep i half st.2 st.1 j, st.2.mul wlen))
        (a, w)).1).map (fun z => z.scale t),
       (l.foldl (fun st j => (bfStep i half st.2 st.1 j, st.2.mul wlen))
        (a, w)).2) by
    rw [h]
  intro l
  induction l with
  | nil => intro a w; rfl
  | cons x xs ih =>
    intro a w
    rw [List.foldl_cons, List.foldl_cons, bfStep_scale, ih]

/-- A butterfly stage on a scaled array is the scaled stage. -/
theorem bfStage_scale (c s : ℚ → R) (sgn : ℚ) (n len : ℕ)
    (arr : List (Cx R)) (t : R) :
    bfStage c s sgn n len (arr.map (fun z => z.scale t)) =
      (bfStage c s sgn n len arr).map (fun z => z.scale t) := by
  unfold bfStage
  suffices h : ∀ (l : List ℕ) (a : List (Cx R)) (wlen : Cx R),
      l.foldl (fun a b => bfBlock wlen (len / 2) (b * len) a)
        (a.map (fun z => z.scale t)) =
      (l.foldl (fun a b => bfBlock wlen (len / 2) (b * len) a) a).map
        (fun z => z.scale t) by
    rw [h]
  intro l
  induction l with
  | nil => intro a wlen; rfl
  | cons x xs ih =>
    intro a wlen
    rw [List.foldl_cons, List.foldl_cons, bfBlock_scale, ih]

/-- The butterfly network on a scaled array is the scaled network. -/
theorem butterflies_scale (c s : ℚ → R) (sgn : ℚ) (n : ℕ)
    (arr : List (Cx R)) (t : R) :
    butterflies c s sgn n (arr.map (fun z => z.scale t)) =
      (butterflies c s sgn n arr).map (fun z => z.scale t) := by
  unfold butterflies
  suffices h : ∀ (l : List ℕ) (a : List (Cx R)),
      l.foldl (fun a k => bfStage c s sgn n (2 ^ (k + 1)) a)
        (a.map (fun z => z.scale t)) =
      (l.foldl (fun a k => bfStage c s sgn n (2 ^ (k + 1)) a) a).map
        (fun z => z.scale t) by
    rw [h]
  intro l
  induction l with
  | nil => intro a; rfl
  | cons x xs ih =>
    intro a
    rw [List.foldl_cons, List.foldl_cons, bfStage_scale, ih]

/-- `fftPow2` is homogeneous: a scaled input yields the scaled output. -/
theorem fftPow2_scale (c s : ℚ → R) (x : List (Cx R)) (d : Bool) (t : R) :
    fftPow2 c s (x.map (fun z => z.scale t)) d =
      (fftPow2 c s x d).map (fun z => z.scale t) := by
  unfold fftPow2
  rw [List.length_map]
  by_cases h : x.length ≤ 1
  · simp only [if_pos h, List.map_map]
    apply List.map_congr_left
    intro a _
    rfl
  · simp only [if_neg h]
    have harr : (List.range x.length).map
        (fun i => getC (x.map (fun z => z.scale t))
          (bitRevIndex (Nat.clog 2 x.length) i)) =
        ((List.range x.length).map
          (fun i => getC x (bitRevIndex (Nat.clog 2 x.length) i))).map
          (fun z => z.scale t) := by
      rw [List.map_map]
      apply List.map_congr_left
      intro i _
      exact getC_map_scale x t _
    rw [harr, butterflies_scale]

/-- `fft1d` of `src/js/sketch.js` is homogeneous as well. -/
theorem sketchFft1d_scale (c s : ℚ → R) (x : List (Cx R)) (d : Bool) (t : R) :
    sketchFft1d c s (x.map (fun z => z.scale t)) d =
      (sketchFft1d c s x d).map (fun z => z.scale t) := by
  unfold sketchFft1d
  rw [List.length_map]
  by_cases h : x.length ≤ 1
  · simp only [if_pos h, List.map_map]
    apply List.map_congr_left
    intro a _
    rfl
  · simp only [if_neg h]
    have harr : (List.range x.length).map
        (fun i => getC (x.map (fun z => z.scale t))
          (bitRevIndex (Nat.log 2 x.length) i)) =
        ((List.range x.length).map
          (fun i => getC x (bitRevIndex (Nat.log 2 x.length) i))).map
          (fun z => z.scale t) := by
      rw [List.map_map]
      apply List.map_congr_left
      intro i _
      exact getC_map_scale x t _
    rw [harr, butterflies_scale]

/-- `bluA` is homogeneous in the input sequence. -/
theorem bluA_scale (x chirp : List (Cx R)) (N M : ℕ) (t : R) :
    bluA (x.map (fun z => z.scale t)) chirp N M =
      (bluA x chirp N M).map (fun z => z.scale t) := by
  unfold bluA
  rw [List.map_map]
  apply List.map_congr_left
  intro n _
  by_cases hn : n < N
  · simp only [if_pos hn, Function.comp_apply, getC_map_scale, scale_mul_left]
  · simp only [if_neg hn, Function.comp_apply]
    exact (scale_zero_cx t).symm

/-- `bluConv` is homogeneous in `A`. -/
theorem bluConv_scale (c s : ℚ → R) (A B : List (Cx R)) (M : ℕ) (t : R) :
    bluConv c s (A.map (fun z => z.scale t)) B M =
      (bluConv c s A B M).map (fun z => z.scale t) := by
  unfold bluConv
  rw [fftPow2_scale]
  have h : (List.range M).map (fun i =>
      (getC ((fftPow2 c s A false).map (fun z => z.scale t)) i).mul
        (getC (fftPow2 c s B false) i)) =
      ((List.range M).map (fun i =>
        (getC (fftPow2 c s A false) i).mul (getC (fftPow2 c s B false) i))).map
        (fun z => z.scale t) := by
    rw [List.map_map]
    apply List.map_congr_left
    intro i _
    simp only [Function.comp_apply, getC_map_scale, scale_mul_left]
  rw [h, fftPow2_scale]

/-- `bluesteinFFT` of `src/js/fft.js` is homogeneous in its input: a field
scaled by `t` transforms to the output scaled by `t`. -/
theorem jsBluesteinFFT_scale (c s : ℚ → R) (x : List (Cx R)) (d : Bool)
    (t : R) :
    jsBluesteinFFT c s (x.map (fun z => z.scale t)) d =
      (jsBluesteinFFT c s x d).map (fun z => z.scale t) := by
  unfold jsBluesteinFFT
  rw [List.length_map]
  by_cases h : x.length &&& (x.length - 1) = 0
  · simp only [if_pos h]
    exact fftPow2_scale c s x d t
  · simp only [if_neg h]
    rw [bluA_scale, bluConv_scale, List.map_map]
    apply List.map_congr_left
    intro k _
    simp only [Function.comp_apply, getC_map_scale, scale_mul_right]

end Homogeneity

/-- C2: for a square field whose side `n` is not a power of two, `fft2d` of
`src/js/fft.js` (which routes every row and column through `bluesteinFFT`)
returns `M²` times the matrix computed with the spec's normalized Bluestein
transform, where `M = nextPowerOf2(2n−1)` — one factor `M` per 1D pass.
Consequently a forward-then-inverse round trip is `M⁴·n²` times the field
rather than the claimed `n²` times. -/
theorem c2_fft2d_scaling_defect {R : Type} [Field R] (c s : ℚ → R)
    (m : List (List (Cx R))) (d : Bool)
    (hsq : ∀ row ∈ m, row.length = m.length)
    (hnp : ¬ m.length &&& (m.length - 1) = 0)
    (hM : ((jsNextPowerOf2 (2 * m.length - 1) : ℕ) : R) ≠ 0) :
    jsFft2d c s m d = (specFft2d c s m d).map (fun row =>
      row.map (fun z => z.scale
        (((jsNextPowerOf2 (2 * m.length - 1) : ℕ) : R) *
         ((jsNextPowerOf2 (2 * m.length - 1) : ℕ) : R)))) := by
  have hm0 : m.length ≠ 0 := by
    intro h0
    rw [h0] at hnp
    exact hnp (by decide)
  have hcols : (m.headD []).length = m.length := by
    rcases m with _ | ⟨r0, t⟩
    · simp at hm0
    · exact hsq r0 (List.mem_cons_self _ _)
  have hrow : ∀ row ∈ m, jsBluesteinFFT c s row d =
      (specBluesteinFFT c s row d).map (fun z => z.scale
        ((jsNextPowerOf2 (2 * m.length - 1) : ℕ) : R)) := by
    intro row hr
    have hb := bluestein_scale_helper c s row d
      (by rw [hsq row hr]; exact hnp) (by rw [hsq row hr]; exact hM)
    rwa [hsq row hr] at hb
  unfold jsFft2d specFft2d jsFft1d
  rw [hcols, List.map_map]
  apply List.map_congr_left
  intro i _
  simp only [Function.comp_apply]
  rw [List.map_map]
  apply List.map_congr_left
  intro j _
  simp only [Function.comp_apply]
  have hcol : (m.map (fun row => jsBluesteinFFT c s row d)).map
        (fun r => getC r j) =
      ((m.map (fun row => specBluesteinFFT c s row d)).map
        (fun r => getC r j)).map (fun z => z.scale
          ((jsNextPowerOf2 (2 * m.length - 1) : ℕ) : R)) := by
    rw [List.map_map, List.map_map, List.map_map]
    apply List.map_congr_left
    intro row hr
    simp only [Function.comp_apply]
    rw [hrow row hr, getC_map_scale]
  rw [hcol, jsBluesteinFFT_scale]
  have hlen : ((m.map (fun row => specBluesteinFFT c s row d)).map
      (fun r => getC r j)).length = m.length := by simp
  have hb2 := bluestein_scale_helper c s
    ((m.map (fun row => specBluesteinFFT c s row d)).map (fun r => getC r j)) d
    (by rw [hlen]; exact hnp) (by rw [hlen]; exact hM)
  rw [hlen] at hb2
  rw [hb2, getC_map_scale, getC_map_scale, scale_scale]

/-- Witness for `c2_fft2d_scaling_defect` over `ℚ` at a 3×3 field. -/
theorem c2_fft2d_scaling_defect_witness :
    jsFft2d (fun _ => (0 : ℚ)) (fun _ => 0)
        [[⟨1, 0⟩, ⟨0, 0⟩, ⟨0, 0⟩], [⟨0, 0⟩, ⟨0, 0⟩, ⟨0, 0⟩],
         [⟨0, 0⟩, ⟨0, 0⟩, ⟨0, 0⟩]] false =
      (specFft2d (fun _ => (0 : ℚ)) (fun _ => 0)
          [[⟨1, 0⟩, ⟨0, 0⟩, ⟨0, 0⟩], [⟨0, 0⟩, ⟨0, 0⟩, ⟨0, 0⟩],
           [⟨0, 0⟩, ⟨0, 0⟩, ⟨0, 0⟩]] false).map (fun row =>
        row.map (fun z => z.scale
          (((jsNextPowerOf2 (2 * 3 - 1) : ℕ) : ℚ) *
           ((jsNextPowerOf2 (2 * 3 - 1) : ℕ) : ℚ)))) := by
  have h8 : jsNextPowerOf2 5 = 8 := by
    rw [jsNextPowerOf2]
    norm_num [Nat.clog]
  exact c2_fft2d_scaling_defect (fun _ => (0 : ℚ)) (fun _ => 0) _ false
    (by
      intro row hr
      simp only [List.mem_cons, List.not_mem_nil, or_false] at hr
      rcases hr with h | h | h <;> subst h <;> rfl)
    (by decide)
    (by norm_num [h8])

end TeaLeaf
